import Mathlib

/-!
Verification of the sentix sentiment-to-signal pipeline.

Each section shallowly embeds one component of the repository
(`sentix/models/prob_model.py`, `sentix/backtest/backtester.py`,
`sentix/backtest/label.py`, `sentix/features/aggregate.py`,
`sentix/sentiment/finbert.py`, `sentix/backtest/walk_forward.py`,
`sentix/alerts/rule.py`) as executable Lean definitions, and proves the
spec-level properties about them.  Machine floats are modelled by `ℚ`;
float `NaN` is modelled by `Option` where the code can produce it;
irrational constants produced by `sqrt`/`exp` are abstracted as function
or rational parameters (the properties proved never depend on their
values).
-/

namespace Sentix

/-! ### ProbModel (`sentix/models/prob_model.py`)

A pandas `DataFrame` row is modelled as an association list from column
name to rational value; a table is a list of rows.  The underlying
calibrated classifier (`CalibratedClassifierCV`) predicts row-wise, so it
is abstracted as a function from the ordered feature-value vector to a
probability. -/

abbrev Col := String

/-- One table row: column name ↦ value. -/
abbrev FeatureRow := List (Col × ℚ)

/-- Embeds `FEATURE_PATTERN = re.compile(r'(mean|std|min|max|count|unc|decay)')`
used with `re.match`, i.e. anchored at the start of the column name. -/
def featurePattern (c : Col) : Bool :=
  ["mean", "std", "min", "max", "count", "unc", "decay"].any
    (fun p => c.startsWith p)

/-- Embeds `X.reindex(columns=self.feature_cols, fill_value=0)` followed by
`.fillna(0)`: for each stored feature column in training order, take the
row's value under that name, or 0 if the column is absent. -/
def reindexRow (featureCols : List Col) (X : FeatureRow) : List ℚ :=
  featureCols.map (fun c => (X.lookup c).getD 0)

/-- Embeds `ProbModel._select_features`: if `self.feature_cols` is truthy
(not `None` and not empty) reindex by the stored names; otherwise fall back
to selecting the columns of `X` matching `FEATURE_PATTERN`. -/
def selectFeatures (featureCols : Option (List Col)) (X : FeatureRow) : List ℚ :=
  match featureCols with
  | some (c :: cs) => reindexRow (c :: cs) X
  | _ => (X.filter (fun p => featurePattern p.1)).map Prod.snd

/-- Embeds `ProbModel.predict_proba` on a single row: select/order the
features, then apply the (abstract, row-wise) calibrated classifier. -/
def predictProbaRow (clf : List ℚ → ℚ) (featureCols : Option (List Col))
    (X : FeatureRow) : ℚ :=
  clf (selectFeatures featureCols X)

/-- Embeds `ProbModel.predict_proba` on a table (row-wise application). -/
def predictProba (clf : List ℚ → ℚ) (featureCols : Option (List Col))
    (T : List FeatureRow) : List ℚ :=
  T.map (predictProbaRow clf featureCols)

lemma lookup_eq_none_of_keys (l : FeatureRow) (c : Col)
    (h : ∀ p ∈ l, p.1 ≠ c) : l.lookup c = none := by
  induction l with
  | nil => rfl
  | cons p rest ih =>
    have hp : c ≠ p.1 := Ne.symm (h p (List.mem_cons_self _ _))
    simp only [List.lookup, beq_false_of_ne hp]
    exact ih (fun q hq => h q (List.mem_cons_of_mem _ hq))

lemma lookup_append_left_of_keys (X extra : FeatureRow) (c : Col)
    (h : ∀ p ∈ extra, p.1 ≠ c) :
    (X ++ extra).lookup c = X.lookup c := by
  induction X with
  | nil => simpa using lookup_eq_none_of_keys extra c h
  | cons p rest ih =>
    simp only [List.cons_append, List.lookup]
    cases hbc : (c == p.1) <;> simp [ih]

lemma lookup_eq_of_perm (X Y : FeatureRow)
    (hperm : X.Perm Y) (c : Col)
    (hnd : (Y.map Prod.fst).Nodup) :
    X.lookup c = Y.lookup c := by
  induction hperm with
  | nil => rfl
  | cons p h ih =>
    simp only [List.map_cons, List.nodup_cons] at hnd
    simp only [List.lookup]
    cases hbc : (c == p.1) <;> simp [ih hnd.2]
  | swap p q l =>
    simp only [List.map_cons, List.nodup_cons, List.mem_cons] at hnd
    have hpq : p.1 ≠ q.1 := fun h => hnd.1 (Or.inl h)
    by_cases hq : c = q.1 <;> by_cases hp : c = p.1
    · exact absurd (Or.inl (hp.symm.trans hq)) hnd.1
    · simp [List.lookup, hq, hp, beq_false_of_ne (Ne.symm hpq)]
    · simp [List.lookup, hq, hp, beq_false_of_ne hpq]
    · simp [List.lookup, beq_false_of_ne hq, beq_false_of_ne hp]
  | trans h1 h2 ih1 ih2 =>
    have hmid := ((h2.map Prod.fst).nodup_iff).mpr hnd
    rw [ih1 hmid, ih2 hnd]

/-- C1: for a trained `ProbModel` (non-empty `feature_cols` stored at fit
time), `predict_proba` gives the same probability on a row `Xp` that is any
permutation of the training-schema row `X` extended with extra columns not
in `feature_cols` (missing feature columns are filled with 0, extra ones are
ignored, order is restored by the reindex-by-name step); moreover a feature
column absent from the row contributes exactly 0 at its training position. -/
theorem predict_proba_reindex_contract
    (clf : List ℚ → ℚ) (featureCols : List Col) (X extra Xp : FeatureRow)
    (hfit : featureCols ≠ [])
    (hnd : (Xp.map Prod.fst).Nodup)
    (hperm : Xp.Perm (X ++ extra))
    (hextra : ∀ p ∈ extra, p.1 ∉ featureCols) :
    predictProbaRow clf (some featureCols) Xp
      = predictProbaRow clf (some featureCols) X
    ∧ ∀ (i : ℕ) (c : Col), featureCols[i]? = some c → X.lookup c = none →
        (reindexRow featureCols X)[i]? = some (0 : ℚ) := by
  constructor
  · have hndXE : ((X ++ extra).map Prod.fst).Nodup :=
      ((hperm.map Prod.fst).nodup_iff).mp hnd
    have hlook : ∀ c ∈ featureCols, Xp.lookup c = X.lookup c := by
      intro c hc
      rw [lookup_eq_of_perm Xp (X ++ extra) hperm c hndXE]
      exact lookup_append_left_of_keys X extra c
        (fun p hp hpc => hextra p hp (hpc ▸ hc))
    obtain ⟨c0, cs, rfl⟩ : ∃ c0 cs, featureCols = c0 :: cs := by
      cases featureCols with
      | nil => exact absurd rfl hfit
      | cons a l => exact ⟨a, l, rfl⟩
    unfold predictProbaRow selectFeatures reindexRow
    congr 1
    exact List.map_congr_left (fun c hc => by rw [hlook c hc])
  · intro i c hi hnone
    simp [reindexRow, List.getElem?_map, hi, hnone]

/-- Witness for C1 at a concrete trained schema, row, permutation and extra
column. -/
theorem predict_proba_reindex_contract_witness :
    predictProbaRow (fun l => l.sum) (some ["mean_sent", "count"])
        [("extra_col", 5), ("count", 2), ("mean_sent", 3)]
      = predictProbaRow (fun l => l.sum) (some ["mean_sent", "count"])
        [("mean_sent", 3), ("count", 2)] :=
  (predict_proba_reindex_contract (fun l => l.sum) ["mean_sent", "count"]
    [("mean_sent", 3), ("count", 2)] [("extra_col", 5)]
    [("extra_col", 5), ("count", 2), ("mean_sent", 3)]
    (by decide) (by decide) (by decide) (by decide)).1

/-! ### Backtester (`sentix/backtest/backtester.py`)

The per-row PnL, the equity curve `(1 + df['pnl']).cumprod()`, and the
metrics `total_return = df['equity'].iloc[-1] - 1` and
`max_dd = ((equity - expanding_max) / expanding_max).min()` are embedded
over `ℚ`.  `Option` models the empty-table case where `.iloc[-1]` / `.min()`
have no value. -/

/-- Embeds `_compute_pnl`: PnL is `r_fwd - costs_bps * 1e-4` on rows where
the predicted probability strictly exceeds the long threshold, else 0. -/
def computePnl (P rfwd : List ℚ) (thresholdLong : ℚ) (costsBps : ℤ) : List ℚ :=
  List.zipWith (fun p r => if thresholdLong < p then r - (costsBps : ℚ) / 10000 else 0)
    P rfwd

def cumprodAux (acc : ℚ) : List ℚ → List ℚ
  | [] => []
  | x :: xs => (acc * x) :: cumprodAux (acc * x) xs

/-- Embeds `df['equity'] = (1 + df['pnl']).cumprod()`: entry `i` is the
product of `(1 + pnl_j)` for `j ≤ i` (pandas `cumprod` does not prepend an
initial 1.0 row). -/
def equityCurve (pnl : List ℚ) : List ℚ :=
  cumprodAux 1 (pnl.map (fun x => 1 + x))

/-- Embeds `total_return = df['equity'].iloc[-1] - 1`. -/
def totalReturn (pnl : List ℚ) : Option ℚ :=
  (equityCurve pnl).getLast?.map (fun e => e - 1)

def runningMaxAux (acc : ℚ) : List ℚ → List ℚ
  | [] => []
  | x :: xs => (max acc x) :: runningMaxAux (max acc x) xs

/-- Embeds `peak = df['equity'].expanding().max()`. -/
def runningMax : List ℚ → List ℚ
  | [] => []
  | x :: xs => x :: runningMaxAux x xs

/-- Embeds `_compute_max_drawdown`: `((equity - peak) / peak).min()`. -/
def maxDrawdown (pnl : List ℚ) : Option ℚ :=
  (List.zipWith (fun ei pk => (ei - pk) / pk) (equityCurve pnl)
    (runningMax (equityCurve pnl))).min?

lemma cumprodAux_zeros (l : List ℚ) (hz : ∀ x ∈ l, x = 0) :
    ∀ acc, cumprodAux acc (l.map (fun x => 1 + x)) = List.replicate l.length acc := by
  induction l with
  | nil => intro acc; rfl
  | cons x xs ih =>
    intro acc
    have hx : x = 0 := hz x (List.mem_cons_self _ _)
    have hxs : ∀ y ∈ xs, y = 0 := fun y hy => hz y (List.mem_cons_of_mem _ hy)
    simp [cumprodAux, hx, List.replicate_succ, ih hxs]

lemma runningMaxAux_const (c : ℚ) (k : ℕ) :
    runningMaxAux c (List.replicate k c) = List.replicate k c := by
  induction k with
  | zero => rfl
  | succ n ih => simp [List.replicate_succ, runningMaxAux, ih]

lemma runningMax_const (c : ℚ) (m : ℕ) :
    runningMax (List.replicate m c) = List.replicate m c := by
  cases m with
  | zero => rfl
  | succ n => simp [List.replicate_succ, runningMax, runningMaxAux_const]

lemma zipWith_replicate_same (f : ℚ → ℚ → ℚ) (c d : ℚ) (m : ℕ) :
    List.zipWith f (List.replicate m c) (List.replicate m d)
      = List.replicate m (f c d) := by
  induction m with
  | zero => rfl
  | succ n ih => simp [List.replicate_succ, ih]

/-- C2 counterexample: the backtester's equity series does not start at
exactly 1.0 — with a single row of PnL 1/2 (probability 1 above threshold
1/2, zero costs), the first equity value is 3/2. -/
theorem backtest_equity_start_counterexample :
    (equityCurve (computePnl [1] [1/2] (1/2) 0)).head? ≠ some 1 := by
  norm_num [equityCurve, computePnl, cumprodAux]

/-- C2 (amended): the equity curve is the running cumulative product of
`(1 + pnl)`, so its first entry is `1 + pnl₀` — exactly 1.0 only when the
first row's PnL is 0 (the 1.0 start is the implicit empty product, not a
stored row); and for an all-zero PnL series `total_return = 0` and
`max_dd = 0`. -/
theorem backtest_equity_amended (pnl : List ℚ) (hne : pnl ≠ []) :
    (equityCurve pnl).head? = pnl.head?.map (fun x => 1 + x)
    ∧ ((∀ x ∈ pnl, x = 0) →
        totalReturn pnl = some 0 ∧ maxDrawdown pnl = some 0) := by
  obtain ⟨x, xs, rfl⟩ := List.exists_cons_of_ne_nil hne
  constructor
  · simp [equityCurve, cumprodAux]
  · intro hz
    have he : equityCurve (x :: xs) = List.replicate (x :: xs).length 1 :=
      cumprodAux_zeros _ hz 1
    constructor
    · unfold totalReturn
      rw [he, List.length_cons, List.replicate_succ']
      simp
    · unfold maxDrawdown
      rw [he, runningMax_const, zipWith_replicate_same, List.length_cons]
      rw [List.min?_replicate_of_pos (min_self _) (Nat.succ_pos _)]
      norm_num

/-- Witness for the amended C2 at the concrete all-zero PnL series [0, 0]. -/
theorem backtest_equity_amended_witness :
    (equityCurve [0, 0]).head? = [(0 : ℚ), 0].head?.map (fun x => 1 + x)
    ∧ ((∀ x ∈ [(0 : ℚ), 0], x = 0) →
        totalReturn [0, 0] = some 0 ∧ maxDrawdown [0, 0] = some 0) :=
  backtest_equity_amended [0, 0] (by decide)

/-! ### Labeler (`sentix/backtest/label.py`, `_compute_labels`)

The merged sentiment+price table is a list of rows `{ticker, bucket_start,
close}`; ticker symbols are modelled as `ℕ` identifiers and bucket starts as
`ℤ` (only their ordering matters).  `close : Option ℚ` models a possibly-NaN
price (the inner merge can leave NaN closes from the weekly resample).  The
sentiment feature columns are carried through `_compute_labels` untouched and
play no role in it, so they are not represented.  `groupby('ticker')['close']
.shift(-horizon_bars)` assigns to the row at position `j` of its ticker's
subsequence the close of position `j + horizon_bars` of the same subsequence;
on a row-by-row traversal this is the `horizon_bars`-th later row with the
same ticker, which `findTicker` computes. -/

/-- Ticker symbols, as abstract identifiers. -/
abbrev Ticker := ℕ

structure MRow where
  ticker : Ticker
  bucket : ℤ
  close : Option ℚ
deriving DecidableEq, Repr

/-- Sort key of `df.sort_values(['ticker', 'bucket_start'])`. -/
def mrowLE (a b : MRow) : Prop :=
  a.ticker < b.ticker ∨ (a.ticker = b.ticker ∧ a.bucket ≤ b.bucket)

instance : DecidableRel mrowLE := fun a b => by unfold mrowLE; infer_instance

/-- Embeds `df = df.sort_values(['ticker', 'bucket_start'])`. -/
def sortMerged (df : List MRow) : List MRow := df.insertionSort mrowLE

/-- One labeled row, after the `close_fwd`, `r_fwd` and `y` columns are
added.  `none` models NaN. -/
structure LRow where
  ticker : Ticker
  bucket : ℤ
  close : Option ℚ
  close_fwd : Option ℚ
  r_fwd : Option ℚ
  y : ℕ
deriving DecidableEq, Repr

/-- The `k`-th (0-indexed) row carrying ticker `t` in the list, i.e. entry
`k` of the ticker's subsequence. -/
def findTicker (t : Ticker) : List MRow → ℕ → Option MRow
  | [], _ => none
  | r :: rs, k =>
    if r.ticker = t then
      match k with
      | 0 => some r
      | k' + 1 => findTicker t rs k'
    else findTicker t rs k

/-- Embeds `r_fwd = close_fwd / close - 1` with NaN propagation. -/
def rowRfwd (close cf : Option ℚ) : Option ℚ :=
  match close, cf with
  | some c, some f => some (f / c - 1)
  | _, _ => none

/-- The labeled row built from row `r` when the rows after it (in the sorted
table) are `rs`: `close_fwd` is the close of the `horizon_bars`-th later row
of the same ticker (the groupby-shift semantics), `r_fwd = close_fwd/close - 1`,
and `y = (r_fwd > 0).astype(int)` (NaN compares false, giving 0). -/
def mkLRow (hz : ℕ) (r : MRow) (rs : List MRow) : LRow :=
  { ticker := r.ticker, bucket := r.bucket, close := r.close,
    close_fwd := (findTicker r.ticker rs (hz - 1)).bind MRow.close,
    r_fwd := rowRfwd r.close ((findTicker r.ticker rs (hz - 1)).bind MRow.close),
    y := match rowRfwd r.close ((findTicker r.ticker rs (hz - 1)).bind MRow.close) with
         | some q => if 0 < q then 1 else 0
         | none => 0 }

/-- Embeds the column-adding part of `_compute_labels` on the sorted table. -/
def addCloseFwd (hz : ℕ) : List MRow → List LRow
  | [] => []
  | r :: rs => mkLRow hz r rs :: addCloseFwd hz rs

/-- Embeds `_compute_labels`: sort by (ticker, bucket_start), add the
`close_fwd`/`r_fwd`/`y` columns, then `dropna(subset=['r_fwd'])`. -/
def computeLabels (hz : ℕ) (df : List MRow) : List LRow :=
  (addCloseFwd hz (sortMerged df)).filter (fun r => r.r_fwd.isSome)

@[simp] lemma mkLRow_ticker (hz : ℕ) (r : MRow) (rs : List MRow) :
    (mkLRow hz r rs).ticker = r.ticker := rfl

@[simp] lemma mkLRow_close_fwd (hz : ℕ) (r : MRow) (rs : List MRow) :
    (mkLRow hz r rs).close_fwd = (findTicker r.ticker rs (hz - 1)).bind MRow.close := rfl

lemma findTicker_eq (t : Ticker) : ∀ (rs : List MRow) (k : ℕ),
    findTicker t rs k = (rs.filter (fun r => r.ticker == t))[k]? := by
  intro rs
  induction rs with
  | nil => intro k; simp [findTicker]
  | cons r rs ih =>
    intro k
    by_cases h : r.ticker = t
    · cases k with
      | zero => simp [findTicker, h, List.filter_cons]
      | succ k' => simp [findTicker, h, List.filter_cons, ih]
    · simp [findTicker, h, List.filter_cons, beq_false_of_ne h, ih]

lemma findTicker_filter_self (t : Ticker) (rs : List MRow) (k : ℕ) :
    findTicker t (rs.filter (fun x => x.ticker == t)) k = findTicker t rs k := by
  rw [findTicker_eq, findTicker_eq, List.filter_filter]
  simp only [Bool.and_self]

lemma mkLRow_filter_self (hz : ℕ) (t : Ticker) (r : MRow) (rs : List MRow)
    (h : r.ticker = t) :
    mkLRow hz r (rs.filter (fun x => x.ticker == t)) = mkLRow hz r rs := by
  unfold mkLRow
  rw [h, findTicker_filter_self]

lemma filter_addCloseFwd (hz : ℕ) (t : Ticker) : ∀ rows : List MRow,
    (addCloseFwd hz rows).filter (fun x => x.ticker == t)
      = addCloseFwd hz (rows.filter (fun x => x.ticker == t)) := by
  intro rows
  induction rows with
  | nil => rfl
  | cons r rs ih =>
    by_cases h : r.ticker = t
    · simp only [addCloseFwd, List.filter_cons, mkLRow_ticker, h, beq_self_eq_true,
        if_true, ih, mkLRow_filter_self hz t r rs h]
    · simp only [addCloseFwd, List.filter_cons, mkLRow_ticker, beq_false_of_ne h,
        Bool.false_eq_true, if_false, ih]

lemma addCloseFwd_getElem_close_fwd (hz : ℕ) (hhz : 1 ≤ hz) (t : Ticker) :
    ∀ (g : List MRow), (∀ r ∈ g, r.ticker = t) →
      ∀ (j : ℕ) (r : LRow), (addCloseFwd hz g)[j]? = some r →
        r.close_fwd = (g[j + hz]?).bind MRow.close := by
  intro g
  induction g with
  | nil => intro _ j r hr; simp [addCloseFwd] at hr
  | cons x xs ih =>
    intro hall j r hr
    cases j with
    | zero =>
      simp only [addCloseFwd, List.getElem?_cons_zero, Option.some.injEq] at hr
      subst hr
      rw [mkLRow_close_fwd, hall x (List.mem_cons_self _ _), findTicker_eq]
      have hfx : xs.filter (fun r => r.ticker == t) = xs :=
        List.filter_eq_self.mpr
          (fun a ha => by simp [hall a (List.mem_cons_of_mem _ ha)])
      rw [hfx]
      obtain ⟨k, rfl⟩ : ∃ k, hz = k + 1 :=
        ⟨hz - 1, (Nat.succ_pred_eq_of_pos hhz).symm⟩
      simp [List.getElem?_cons_succ]
    | succ j' =>
      simp only [addCloseFwd, List.getElem?_cons_succ] at hr
      have hrec := ih (fun a ha => hall a (List.mem_cons_of_mem _ ha)) j' r hr
      rw [hrec]
      have hidx : j' + 1 + hz = (j' + hz) + 1 := by omega
      rw [hidx, List.getElem?_cons_succ]

lemma mem_addCloseFwd_rfwd (hz : ℕ) : ∀ (l : List MRow) (r : LRow),
    r ∈ addCloseFwd hz l → r.r_fwd = rowRfwd r.close r.close_fwd := by
  intro l
  induction l with
  | nil => intro r hr; simp [addCloseFwd] at hr
  | cons x xs ih =>
    intro r hr
    rcases List.mem_cons.mp hr with rfl | hr
    · rfl
    · exact ih r hr

lemma mem_addCloseFwd_y (hz : ℕ) : ∀ (l : List MRow) (r : LRow),
    r ∈ addCloseFwd hz l →
      r.y = (match r.r_fwd with
             | some q => if 0 < q then 1 else 0
             | none => 0) := by
  intro l
  induction l with
  | nil => intro r hr; simp [addCloseFwd] at hr
  | cons x xs ih =>
    intro r hr
    rcases List.mem_cons.mp hr with rfl | hr
    · rfl
    · exact ih r hr

/-- C3: every row of the labeler's output has a (non-NaN) forward return,
and its binary label satisfies `y = 1` exactly when `r_fwd > 0` (strict);
in particular `r_fwd = 0` gives `y = 0`. -/
theorem label_y_strict (hz : ℕ) (df : List MRow) (r : LRow)
    (hr : r ∈ computeLabels hz df) :
    ∃ q, r.r_fwd = some q ∧ (r.y = 1 ↔ 0 < q) ∧ (q = 0 → r.y = 0) := by
  obtain ⟨hmem, hsome⟩ := List.mem_filter.mp hr
  obtain ⟨q, hq⟩ := Option.isSome_iff_exists.mp hsome
  refine ⟨q, hq, ?_, ?_⟩
  · rw [mem_addCloseFwd_y hz _ r hmem, hq]
    by_cases h0 : 0 < q <;> simp [h0]
  · intro h0
    rw [mem_addCloseFwd_y hz _ r hmem, hq, h0]
    simp

/-- Witness for C3: a two-row single-ticker table with closes 10 then 11 and
horizon 1; the surviving row has `r_fwd = 1/10 > 0` and `y = 1`. -/
theorem label_y_strict_witness :
    ∃ q, (⟨0, 0, some 10, some 11, some (1/10), 1⟩ : LRow).r_fwd = some q
      ∧ ((⟨0, 0, some 10, some 11, some (1/10), 1⟩ : LRow).y = 1 ↔ 0 < q)
      ∧ (q = 0 → (⟨0, 0, some 10, some 11, some (1/10), 1⟩ : LRow).y = 0) :=
  label_y_strict 1 [⟨0, 0, some 10⟩, ⟨0, 1, some 11⟩] _ (by
    norm_num [computeLabels, sortMerged, addCloseFwd, mkLRow, findTicker,
      rowRfwd, mrowLE, List.insertionSort, List.orderedInsert])

/-- C4: in the labeler, `close_fwd` at position `j` of a ticker's
(ticker, bucket_start)-sorted subsequence equals the `close` at position
`j + horizon_bars` of that same ticker's subsequence — the groupby-shift
never crosses ticker boundaries, and positions past the end of the ticker's
series give NaN (`none`); and every row of the final output has a present
`close_fwd`, so the trailing `horizon_bars` rows of each ticker, whose
`close_fwd` is unavailable, are dropped rather than filled. -/
theorem label_shift_within_ticker (hz : ℕ) (hhz : 1 ≤ hz) (df : List MRow)
    (t : Ticker) :
    (∀ (j : ℕ) (r : LRow),
        ((addCloseFwd hz (sortMerged df)).filter (fun x => x.ticker == t))[j]?
            = some r →
        r.close_fwd
          = (((sortMerged df).filter (fun x => x.ticker == t))[j + hz]?).bind
              MRow.close)
    ∧ ∀ r ∈ computeLabels hz df, r.close_fwd.isSome := by
  constructor
  · intro j r hr
    rw [filter_addCloseFwd] at hr
    refine addCloseFwd_getElem_close_fwd hz hhz t _ ?_ j r hr
    intro a ha
    have := (List.mem_filter.mp ha).2
    simpa using this
  · intro r hr
    obtain ⟨hmem, hsome⟩ := List.mem_filter.mp hr
    have hrf := mem_addCloseFwd_rfwd hz _ r hmem
    rw [hrf] at hsome
    cases hc : r.close with
    | none => rw [hc] at hsome; simp [rowRfwd] at hsome
    | some c =>
      cases hcf : r.close_fwd with
      | none => rw [hc, hcf] at hsome; simp [rowRfwd] at hsome
      | some f => simp [hcf]

/-- Witness for C4 at the concrete two-row single-ticker table and
horizon 1. -/
theorem label_shift_within_ticker_witness :
    (∀ (j : ℕ) (r : LRow),
        ((addCloseFwd 1 (sortMerged [⟨0, 0, some 10⟩, ⟨0, 1, some 11⟩])).filter
            (fun x => x.ticker == 0))[j]? = some r →
        r.close_fwd
          = (((sortMerged [⟨0, 0, some 10⟩, ⟨0, 1, some 11⟩]).filter
              (fun x => x.ticker == 0))[j + 1]?).bind MRow.close)
    ∧ ∀ r ∈ computeLabels 1 [⟨0, 0, some 10⟩, ⟨0, 1, some 11⟩],
        r.close_fwd.isSome :=
  label_shift_within_ticker 1 (by decide) [⟨0, 0, some 10⟩, ⟨0, 1, some 11⟩] 0

/-! ### Bucket Aggregator (`sentix/features/aggregate.py`, `_aggregate_buckets`)

Input rows are scored, ticker-tagged, bucket-floored articles.  The pandas
`groupby(['ticker', 'bucket_start'])` iterates the distinct keys in sorted
order and hands each group (in row order) to the aggregation body, which
sorts it by `published_at`.  Two irrational-valued computations of the body
are abstracted by parameters whose values the proved properties never
depend on: `sq` stands for the square root inside `scores.std()`, and `α`
for the per-step decay weight `1 - 2^(-1/half_life)` of
`scores.ewm(halflife=half_life).mean()` (pandas `adjust=True` weighting,
last entry). -/

structure SRow where
  ticker : Ticker
  published : ℤ
  bucket : ℤ
  score : ℚ
  neu : ℚ
deriving DecidableEq, Repr

/-- Groupby key of `df.groupby(['ticker', 'bucket_start'])`. -/
def skey (r : SRow) : Ticker × ℤ := (r.ticker, r.bucket)

/-- Lexicographic order on groupby keys (pandas iterates keys sorted). -/
def keyLE (a b : Ticker × ℤ) : Prop := a.1 < b.1 ∨ (a.1 = b.1 ∧ a.2 ≤ b.2)

instance : DecidableRel keyLE := fun a b => by unfold keyLE; infer_instance

instance : IsTrans (Ticker × ℤ) keyLE :=
  ⟨fun a b c hab hbc => by
    unfold keyLE at *
    rcases hab with h | ⟨h1, h2⟩ <;> rcases hbc with h' | ⟨h1', h2'⟩
    · exact Or.inl (lt_trans h h')
    · exact Or.inl (by rw [← h1']; exact h)
    · exact Or.inl (by rw [h1]; exact h')
    · exact Or.inr ⟨h1.trans h1', le_trans h2 h2'⟩⟩

instance : IsTotal (Ticker × ℤ) keyLE :=
  ⟨fun a b => by
    unfold keyLE
    rcases lt_trichotomy a.1 b.1 with h | h | h
    · exact Or.inl (Or.inl h)
    · rcases le_total a.2 b.2 with h2 | h2
      · exact Or.inl (Or.inr ⟨h, h2⟩)
      · exact Or.inr (Or.inr ⟨h.symm, h2⟩)
    · exact Or.inr (Or.inl h)⟩

instance : IsAntisymm (Ticker × ℤ) keyLE :=
  ⟨fun a b hab hba => by
    unfold keyLE at *
    rcases hab with h | ⟨h1, h2⟩ <;> rcases hba with h' | ⟨h1', h2'⟩
    · exact absurd h' (lt_asymm h)
    · rw [h1'] at h; exact absurd h (lt_irrefl _)
    · rw [h1] at h'; exact absurd h' (lt_irrefl _)
    · exact Prod.ext h1 (le_antisymm h2 h2')⟩

/-- Within-group sort key (`group.sort_values('published_at')`). -/
def pubLE (a b : SRow) : Prop := a.published ≤ b.published

instance : DecidableRel pubLE := fun a b => by unfold pubLE; infer_instance

/-- Embeds pandas `.mean()` of a series (NaN on an empty series). -/
def listMean (l : List ℚ) : Option ℚ :=
  if l.isEmpty then none else some (l.sum / l.length)

/-- Embeds pandas `.min()` of a non-empty series. -/
def listMin : List ℚ → Option ℚ
  | [] => none
  | x :: xs => some (xs.foldl min x)

/-- Embeds pandas `.max()` of a non-empty series. -/
def listMax : List ℚ → Option ℚ
  | [] => none
  | x :: xs => some (xs.foldl max x)

/-- Sample variance (denominator `n - 1`), the square of pandas
`scores.std()`; `mkBar` applies the abstract square root `sq` to it. -/
def sampleVariance (l : List ℚ) : ℚ :=
  ((l.map (fun x => (x - l.sum / l.length) ^ 2)).sum) / ((l.length : ℚ) - 1)

/-- Accumulator of `ewm(halflife).mean()` with `adjust=True`: the final
value is `Σ (1-α)^(n-1-i) · x_i / Σ (1-α)^(n-1-i)`. -/
def ewmLastFrom (α : ℚ) : List ℚ → ℚ → ℚ → ℚ
  | [], num, den => num / den
  | y :: ys, num, den => ewmLastFrom α ys ((1 - α) * num + y) ((1 - α) * den + 1)

/-- Embeds `scores.ewm(halflife=half_life).mean().iloc[-1]` (`none` on an
empty series, matching the `np.nan` branch of the source). -/
def ewmLast (α : ℚ) : List ℚ → Option ℚ
  | [] => none
  | x :: xs => some (ewmLastFrom α xs x 1)

structure Bar where
  ticker : Ticker
  bucket : ℤ
  mean_sent : Option ℚ
  std_sent : ℚ
  min_sent : Option ℚ
  max_sent : Option ℚ
  count : ℕ
  unc_mean : Option ℚ
  time_decay_mean : Option ℚ
deriving DecidableEq, Repr

/-- Embeds the body of the `for (ticker, bucket), group in grouped` loop of
`_aggregate_buckets`: sort the group by `published_at`, then compute the
statistics of the `score` and `neu` columns. -/
def mkBar (α : ℚ) (sq : ℚ → ℚ) (k : Ticker × ℤ) (group : List SRow) : Bar :=
  { ticker := k.1, bucket := k.2,
    mean_sent := listMean ((group.insertionSort pubLE).map SRow.score),
    std_sent :=
      if 1 < ((group.insertionSort pubLE).map SRow.score).length then
        sq (sampleVariance ((group.insertionSort pubLE).map SRow.score))
      else 0,
    min_sent := listMin ((group.insertionSort pubLE).map SRow.score),
    max_sent := listMax ((group.insertionSort pubLE).map SRow.score),
    count := ((group.insertionSort pubLE).map SRow.score).length,
    unc_mean := listMean ((group.insertionSort pubLE).map SRow.neu),
    time_decay_mean := ewmLast α ((group.insertionSort pubLE).map SRow.score) }

/-- The rows of one groupby group. -/
def groupRows (df : List SRow) (k : Ticker × ℤ) : List SRow :=
  df.filter (fun r => skey r == k)

/-- The distinct groupby keys in sorted order (pandas `groupby` default). -/
def sortedKeys (df : List SRow) : List (Ticker × ℤ) :=
  ((df.map skey).dedup).insertionSort keyLE

/-- Embeds `_aggregate_buckets`: one bar per non-empty (ticker, bucket)
group, keys in sorted order. -/
def aggregateBuckets (α : ℚ) (sq : ℚ → ℚ) (df : List SRow) : List Bar :=
  (sortedKeys df).map (fun k => mkBar α sq k (groupRows df k))

@[simp] lemma mkBar_ticker (α : ℚ) (sq : ℚ → ℚ) (k : Ticker × ℤ)
    (g : List SRow) : (mkBar α sq k g).ticker = k.1 := rfl

@[simp] lemma mkBar_bucket (α : ℚ) (sq : ℚ → ℚ) (k : Ticker × ℤ)
    (g : List SRow) : (mkBar α sq k g).bucket = k.2 := rfl

lemma filter_map_comm {α β : Type} (f : α → β) (p : β → Bool) (l : List α) :
    (l.map f).filter p = (l.filter (fun x => p (f x))).map f := by
  induction l with
  | nil => rfl
  | cons x xs ih =>
    by_cases h : p (f x) = true <;> simp [List.filter_cons, h, ih]

lemma dedup_filter_comm {α : Type} [DecidableEq α] (p : α → Bool) :
    ∀ l : List α, (l.filter p).dedup = l.dedup.filter p := by
  intro l
  induction l with
  | nil => rfl
  | cons a l ih =>
    by_cases hp : p a = true
    · by_cases hm : a ∈ l
      · have hmf : a ∈ l.filter p := List.mem_filter.mpr ⟨hm, hp⟩
        rw [List.filter_cons, if_pos hp, List.dedup_cons_of_mem hmf,
          List.dedup_cons_of_mem hm, ih]
      · have hmf : a ∉ l.filter p := fun h => hm (List.mem_filter.mp h).1
        rw [List.filter_cons, if_pos hp, List.dedup_cons_of_not_mem hmf,
          List.dedup_cons_of_not_mem hm, List.filter_cons, if_pos hp, ih]
    · rw [List.filter_cons, if_neg hp, ih]
      by_cases hm : a ∈ l
      · rw [List.dedup_cons_of_mem hm]
      · rw [List.dedup_cons_of_not_mem hm, List.filter_cons, if_neg hp]

lemma insertionSort_filter_comm (p : Ticker × ℤ → Bool)
    (l : List (Ticker × ℤ)) :
    (l.insertionSort keyLE).filter p = (l.filter p).insertionSort keyLE := by
  exact List.eq_of_perm_of_sorted (r := keyLE)
    (((List.perm_insertionSort keyLE l).filter p).trans
      ((List.perm_insertionSort keyLE (l.filter p)).symm))
    (List.Pairwise.filter p (List.sorted_insertionSort keyLE l))
    (List.sorted_insertionSort keyLE (l.filter p))

lemma groupRows_filter_ticker (df : List SRow) (t : Ticker) (k : Ticker × ℤ)
    (hk : k.1 = t) :
    groupRows (df.filter (fun r => r.ticker == t)) k = groupRows df k := by
  unfold groupRows
  rw [List.filter_filter]
  apply List.filter_congr
  intro r _
  by_cases hsk : skey r = k
  · have : r.ticker = t := by
      have : (skey r).1 = k.1 := by rw [hsk]
      simpa [skey, hk] using this
    simp [hsk, this]
  · simp [beq_false_of_ne hsk]

/-- C5: aggregation is ticker-local — restricting the bars of an article
table to one ticker gives exactly the bars of the table restricted to that
ticker's articles (same bars, same order). -/
theorem aggregate_ticker_local (α : ℚ) (sq : ℚ → ℚ) (df : List SRow)
    (t : Ticker) :
    (aggregateBuckets α sq df).filter (fun b => b.ticker == t)
      = aggregateBuckets α sq (df.filter (fun r => r.ticker == t)) := by
  unfold aggregateBuckets
  rw [filter_map_comm (fun k => mkBar α sq k (groupRows df k))
    (fun b => b.ticker == t)]
  have h1 : (sortedKeys df).filter
      (fun k => (mkBar α sq k (groupRows df k)).ticker == t)
      = (sortedKeys df).filter (fun k => k.1 == t) :=
    List.filter_congr (fun k _ => rfl)
  rw [h1]
  have h2 : (sortedKeys df).filter (fun k => k.1 == t)
      = sortedKeys (df.filter (fun r => r.ticker == t)) := by
    unfold sortedKeys
    rw [insertionSort_filter_comm, ← dedup_filter_comm]
    congr 1
    rw [filter_map_comm skey (fun k => k.1 == t)]
    congr 1
  rw [h2]
  apply List.map_congr_left
  intro k hk
  have hk1 : k.1 = t := by
    unfold sortedKeys at hk
    rw [(List.perm_insertionSort keyLE _).mem_iff, List.mem_dedup] at hk
    obtain ⟨r, hr, rfl⟩ := List.mem_map.mp hk
    have := (List.mem_filter.mp hr).2
    simpa [skey] using this
  rw [groupRows_filter_ticker df t k hk1]

@[simp] lemma mkBar_mean (α : ℚ) (sq : ℚ → ℚ) (k : Ticker × ℤ) (g : List SRow) :
    (mkBar α sq k g).mean_sent
      = listMean ((g.insertionSort pubLE).map SRow.score) := rfl

@[simp] lemma mkBar_min (α : ℚ) (sq : ℚ → ℚ) (k : Ticker × ℤ) (g : List SRow) :
    (mkBar α sq k g).min_sent
      = listMin ((g.insertionSort pubLE).map SRow.score) := rfl

@[simp] lemma mkBar_max (α : ℚ) (sq : ℚ → ℚ) (k : Ticker × ℤ) (g : List SRow) :
    (mkBar α sq k g).max_sent
      = listMax ((g.insertionSort pubLE).map SRow.score) := rfl

@[simp] lemma mkBar_count (α : ℚ) (sq : ℚ → ℚ) (k : Ticker × ℤ) (g : List SRow) :
    (mkBar α sq k g).count
      = ((g.insertionSort pubLE).map SRow.score).length := rfl

@[simp] lemma mkBar_std (α : ℚ) (sq : ℚ → ℚ) (k : Ticker × ℤ) (g : List SRow) :
    (mkBar α sq k g).std_sent
      = if 1 < ((g.insertionSort pubLE).map SRow.score).length then
          sq (sampleVariance ((g.insertionSort pubLE).map SRow.score))
        else 0 := rfl

lemma foldl_min_le (xs : List ℚ) : ∀ x : ℚ,
    xs.foldl min x ≤ x ∧ ∀ y ∈ xs, xs.foldl min x ≤ y := by
  induction xs with
  | nil => intro x; exact ⟨le_refl x, by simp⟩
  | cons z zs ih =>
    intro x
    constructor
    · exact le_trans (ih (min x z)).1 (min_le_left x z)
    · intro y hy
      rcases List.mem_cons.mp hy with rfl | hy
      · exact le_trans (ih (min x y)).1 (min_le_right x y)
      · exact (ih (min x z)).2 y hy

lemma le_foldl_max (xs : List ℚ) : ∀ x : ℚ,
    x ≤ xs.foldl max x ∧ ∀ y ∈ xs, y ≤ xs.foldl max x := by
  induction xs with
  | nil => intro x; exact ⟨le_refl x, by simp⟩
  | cons z zs ih =>
    intro x
    constructor
    · exact le_trans (le_max_left x z) (ih (max x z)).1
    · intro y hy
      rcases List.mem_cons.mp hy with rfl | hy
      · exact le_trans (le_max_right x y) (ih (max x y)).1
      · exact (ih (max x z)).2 y hy

lemma mean_between (l : List ℚ) (hne : l ≠ []) :
    ∃ mn m mx, listMin l = some mn ∧ listMean l = some m ∧ listMax l = some mx
      ∧ mn ≤ m ∧ m ≤ mx := by
  obtain ⟨x, xs, rfl⟩ := List.exists_cons_of_ne_nil hne
  have hnpos : (0 : ℚ) < ((x :: xs).length : ℚ) := by
    have h := List.length_pos.mpr (List.cons_ne_nil x xs)
    exact_mod_cast h
  have hminle : ∀ y ∈ x :: xs, xs.foldl min x ≤ y := by
    intro y hy
    rcases List.mem_cons.mp hy with rfl | hy
    · exact (foldl_min_le xs y).1
    · exact (foldl_min_le xs x).2 y hy
  have hmaxle : ∀ y ∈ x :: xs, y ≤ xs.foldl max x := by
    intro y hy
    rcases List.mem_cons.mp hy with rfl | hy
    · exact (le_foldl_max xs y).1
    · exact (le_foldl_max xs x).2 y hy
  have hlow : ((x :: xs).length : ℚ) * (xs.foldl min x) ≤ (x :: xs).sum := by
    have h := List.card_nsmul_le_sum _ _ hminle
    rwa [nsmul_eq_mul] at h
  have hhigh : (x :: xs).sum ≤ ((x :: xs).length : ℚ) * (xs.foldl max x) := by
    have h := List.sum_le_card_nsmul _ _ hmaxle
    rwa [nsmul_eq_mul] at h
  refine ⟨xs.foldl min x, (x :: xs).sum / ((x :: xs).length : ℚ), xs.foldl max x,
    rfl, by simp [listMean], rfl, ?_, ?_⟩
  · rw [le_div_iff₀ hnpos]
    linarith
  · rw [div_le_iff₀ hnpos]
    linarith

/-- C6: every bar emitted by the aggregator satisfies
`min_sent ≤ mean_sent ≤ max_sent` (all present, not NaN), its `count` equals
the number of article rows in its (ticker, bucket) group, and a
single-article group gets `std_sent = 0` (a plain number, not NaN). -/
theorem bar_stats_sound (α : ℚ) (sq : ℚ → ℚ) (df : List SRow) (b : Bar)
    (hb : b ∈ aggregateBuckets α sq df) :
    (∃ mn m mx, b.min_sent = some mn ∧ b.mean_sent = some m
        ∧ b.max_sent = some mx ∧ mn ≤ m ∧ m ≤ mx)
    ∧ b.count = (groupRows df (b.ticker, b.bucket)).length
    ∧ (b.count = 1 → b.std_sent = 0) := by
  obtain ⟨k, hk, rfl⟩ := List.mem_map.mp hb
  have hkmem : ∃ r ∈ df, skey r = k := by
    unfold sortedKeys at hk
    rw [(List.perm_insertionSort keyLE _).mem_iff, List.mem_dedup] at hk
    exact List.mem_map.mp hk
  have hgne : groupRows df k ≠ [] := by
    obtain ⟨r, hr, hrk⟩ := hkmem
    intro hempty
    have hmem : r ∈ groupRows df k := List.mem_filter.mpr ⟨hr, by simp [hrk]⟩
    rw [hempty] at hmem
    exact List.not_mem_nil r hmem
  have hsne : ((groupRows df k).insertionSort pubLE).map SRow.score ≠ [] := by
    intro h
    have hlen := congrArg List.length h
    simp only [List.length_map, List.length_insertionSort, List.length_nil] at hlen
    exact hgne (List.length_eq_zero.mp hlen)
  refine ⟨?_, ?_, ?_⟩
  · obtain ⟨mn, m, mx, h1, h2, h3, h4, h5⟩ := mean_between _ hsne
    exact ⟨mn, m, mx, by simpa using h1, by simpa using h2, by simpa using h3,
      h4, h5⟩
  · have hks : ((mkBar α sq k (groupRows df k)).ticker,
        (mkBar α sq k (groupRows df k)).bucket) = k := by
      simp
    rw [hks]
    simp [List.length_map, List.length_insertionSort]
  · intro hc
    simp only [mkBar_count, List.length_map, List.length_insertionSort] at hc
    simp [List.length_map, List.length_insertionSort, hc]

/-- Witness for C6 at a concrete one-article table. -/
theorem bar_stats_sound_witness :
    (∃ mn m mx,
        (mkBar (1/2) id (0, 0) (groupRows [⟨0, 0, 0, 1/2, 1/4⟩] (0, 0))).min_sent
            = some mn
        ∧ (mkBar (1/2) id (0, 0) (groupRows [⟨0, 0, 0, 1/2, 1/4⟩] (0, 0))).mean_sent
            = some m
        ∧ (mkBar (1/2) id (0, 0) (groupRows [⟨0, 0, 0, 1/2, 1/4⟩] (0, 0))).max_sent
            = some mx
        ∧ mn ≤ m ∧ m ≤ mx)
    ∧ (mkBar (1/2) id (0, 0) (groupRows [⟨0, 0, 0, 1/2, 1/4⟩] (0, 0))).count
        = (groupRows [⟨0, 0, 0, 1/2, 1/4⟩]
            ((mkBar (1/2) id (0, 0) (groupRows [⟨0, 0, 0, 1/2, 1/4⟩] (0, 0))).ticker,
              (mkBar (1/2) id (0, 0)
                (groupRows [⟨0, 0, 0, 1/2, 1/4⟩] (0, 0))).bucket)).length
    ∧ ((mkBar (1/2) id (0, 0) (groupRows [⟨0, 0, 0, 1/2, 1/4⟩] (0, 0))).count = 1 →
        (mkBar (1/2) id (0, 0) (groupRows [⟨0, 0, 0, 1/2, 1/4⟩] (0, 0))).std_sent
          = 0) :=
  bar_stats_sound (1/2) id [⟨0, 0, 0, 1/2, 1/4⟩] _ (by
    have hkeys : sortedKeys [⟨0, 0, 0, 1/2, 1/4⟩] = [((0 : Ticker), (0 : ℤ))] := by
      decide
    unfold aggregateBuckets
    rw [hkeys]
    simp)

/-! ### Sentiment Scorer (`sentix/sentiment/finbert.py`)

`predict_batch` slices the input into `batch_size` chunks and concatenates
the per-chunk results.  The underlying transformer is abstracted as a pure
per-text function `f` returning the softmax triple in FinBERT's output
order (neg, neu, pos); `_predict_single_batch` replaces an empty or
whitespace-only text by a placeholder before tokenisation and discards the
model output at that index, returning (0, 0, 1, 0) for it — so the record
of such a text never depends on the model. -/

/-- Raw text, as a character list. -/
abbrev Text := List Char

/-- One output record (pos, neg, neu, score). -/
abbrev SentRec := ℚ × ℚ × ℚ × ℚ

/-- Embeds `not text or not str(text).strip()`. -/
def isBlank (t : Text) : Bool := t.all Char.isWhitespace

/-- The record `_predict_single_batch` emits for one text: the empty-text
short-circuit, else (pos, neg, neu, pos − neg) from the model's
(neg, neu, pos) softmax triple. -/
def recordOf (f : Text → ℚ × ℚ × ℚ) (t : Text) : SentRec :=
  if isBlank t then (0, 0, 1, 0)
  else ((f t).2.2, (f t).1, (f t).2.1, (f t).2.2 - (f t).1)

/-- Embeds `_predict_single_batch` on one chunk. -/
def predictSingleBatch (f : Text → ℚ × ℚ × ℚ) (texts : List Text) :
    List SentRec :=
  texts.map (recordOf f)

/-- Embeds `predict_batch`: the loop
`for i in range(0, len(texts), batch_size)` over `batch_size`-sized slices,
extending the result list chunk by chunk (meaningful for `batch_size ≥ 1`;
Python `range` rejects step 0). -/
def predictBatch (f : Text → ℚ × ℚ × ℚ) (b : ℕ) : List Text → List SentRec
  | [] => []
  | x :: xs =>
    predictSingleBatch f (x :: xs.take (b - 1))
      ++ predictBatch f b (xs.drop (b - 1))
termination_by l => l.length
decreasing_by simp [List.length_drop]; omega

lemma predictBatch_eq_map (f : Text → ℚ × ℚ × ℚ) (b : ℕ) (hb : 1 ≤ b) :
    (l : List Text) → predictBatch f b l = l.map (recordOf f)
  | [] => by simp [predictBatch]
  | x :: xs => by
    rw [predictBatch]
    rw [predictBatch_eq_map f b hb (xs.drop (b - 1))]
    unfold predictSingleBatch
    rw [← List.map_append, List.cons_append, List.take_append_drop]
termination_by l => l.length
decreasing_by simp [List.length_drop]; omega

/-- C7: for every batch size ≥ 1 the scorer returns exactly one record per
input text; the output is independent of the batch size; the record at
index `i` is the record of input text `i` (order preserved); and an
empty/whitespace-only text yields (0, 0, 1, 0) at its index regardless of
the underlying model, which is never consulted for that text. -/
theorem predict_batch_contract (f g : Text → ℚ × ℚ × ℚ) (b b2 : ℕ)
    (hb : 1 ≤ b) (hb2 : 1 ≤ b2) (texts : List Text) :
    (predictBatch f b texts).length = texts.length
    ∧ predictBatch f b texts = predictBatch f b2 texts
    ∧ (∀ (i : ℕ) (t : Text), texts[i]? = some t →
        (predictBatch f b texts)[i]? = some (recordOf f t))
    ∧ (∀ (i : ℕ) (t : Text), texts[i]? = some t → isBlank t = true →
        (predictBatch f b texts)[i]? = (predictBatch g b texts)[i]?
          ∧ (predictBatch f b texts)[i]? = some (0, 0, 1, 0)) := by
  refine ⟨?_, ?_, ?_, ?_⟩
  · rw [predictBatch_eq_map f b hb texts, List.length_map]
  · rw [predictBatch_eq_map f b hb texts, predictBatch_eq_map f b2 hb2 texts]
  · intro i t hit
    rw [predictBatch_eq_map f b hb texts, List.getElem?_map, hit]
    rfl
  · intro i t hit hbl
    have h1 : (predictBatch f b texts)[i]? = some (recordOf f t) := by
      rw [predictBatch_eq_map f b hb texts, List.getElem?_map, hit]; rfl
    have h2 : (predictBatch g b texts)[i]? = some (recordOf g t) := by
      rw [predictBatch_eq_map g b hb texts, List.getElem?_map, hit]; rfl
    have hrf : recordOf f t = (0, 0, 1, 0) := by simp [recordOf, hbl]
    have hrg : recordOf g t = (0, 0, 1, 0) := by simp [recordOf, hbl]
    exact ⟨by rw [h1, h2, hrf, hrg], by rw [h1, hrf]⟩

/-- Witness for C7 at a concrete two-text list (one real text, one blank),
two distinct models and batch sizes 2 and 3. -/
theorem predict_batch_contract_witness :
    (predictBatch (fun _ => (1/4, 1/4, 1/2)) 2 [['u'], [' ']]).length
        = ([['u'], [' ']] : List Text).length
    ∧ predictBatch (fun _ => (1/4, 1/4, 1/2)) 2 [['u'], [' ']]
        = predictBatch (fun _ => (1/4, 1/4, 1/2)) 3 [['u'], [' ']]
    ∧ (∀ (i : ℕ) (t : Text), ([['u'], [' ']] : List Text)[i]? = some t →
        (predictBatch (fun _ => (1/4, 1/4, 1/2)) 2 [['u'], [' ']])[i]?
          = some (recordOf (fun _ => (1/4, 1/4, 1/2)) t))
    ∧ (∀ (i : ℕ) (t : Text), ([['u'], [' ']] : List Text)[i]? = some t →
        isBlank t = true →
        (predictBatch (fun _ => (1/4, 1/4, 1/2)) 2 [['u'], [' ']])[i]?
            = (predictBatch (fun _ => (1, 0, 0)) 2 [['u'], [' ']])[i]?
          ∧ (predictBatch (fun _ => (1/4, 1/4, 1/2)) 2 [['u'], [' ']])[i]?
            = some (0, 0, 1, 0)) :=
  predict_batch_contract (fun _ => (1/4, 1/4, 1/2)) (fun _ => (1, 0, 0)) 2 3
    (by decide) (by decide) [['u'], [' ']]

/-! ### ProbModel persistence (`ProbModel.load`)

`load` is `open(model_path, 'rb')` followed by `pickle.load(f)`: a missing
path raises `FileNotFoundError` from `open`, a corrupted blob raises
`pickle.UnpicklingError`, and otherwise the stored object is returned
unchanged.  The filesystem state at the path is modelled explicitly; the
artifact's payload is its pickled `feature_cols` metadata (the classifier
blob is opaque). -/

/-- Stored payload of a pickled `ProbModel`. -/
structure ProbModelArtifact where
  feature_cols : Option (List Col)
deriving DecidableEq, Repr

/-- State of the file at `model_path`. -/
inductive FileState
  | missing
  | corrupt
  | valid (m : ProbModelArtifact)
deriving DecidableEq, Repr

/-- The Python exceptions `ProbModel.load` can surface. -/
inductive LoadError
  | fileNotFoundError
  | unpicklingError
deriving DecidableEq, Repr

/-- Embeds `ProbModel.load`: exceptions from `open`/`pickle.load` propagate;
there is no code path that constructs a fresh (untrained) model. -/
def loadModel : FileState → Except LoadError ProbModelArtifact
  | .missing => .error .fileNotFoundError
  | .corrupt => .error .unpicklingError
  | .valid m => .ok m

/-- C8: loading a missing or corrupted model artifact fails with an explicit
error (the model-artifact-unavailable failure class: `FileNotFoundError`
resp. `UnpicklingError`) and never silently returns an untrained model — in
general an `ok` result is exactly the artifact that was stored, never a
fresh one. -/
theorem load_explicit_error (fs : FileState)
    (hbad : fs = .missing ∨ fs = .corrupt) :
    (∃ e, loadModel fs = .error e)
    ∧ (∀ m, loadModel fs ≠ .ok m)
    ∧ ∀ (fs2 : FileState) (m : ProbModelArtifact),
        loadModel fs2 = .ok m → fs2 = .valid m := by
  refine ⟨?_, ?_, ?_⟩
  · rcases hbad with rfl | rfl
    · exact ⟨.fileNotFoundError, rfl⟩
    · exact ⟨.unpicklingError, rfl⟩
  · rcases hbad with rfl | rfl <;> intro m <;> simp [loadModel]
  · intro fs2 m h
    cases fs2 with
    | missing => simp [loadModel] at h
    | corrupt => simp [loadModel] at h
    | valid m2 => simp [loadModel] at h; rw [h]

/-- Witness for C8 at the missing-file state. -/
theorem load_explicit_error_witness :
    (∃ e, loadModel .missing = .error e)
    ∧ (∀ m, loadModel .missing ≠ .ok m)
    ∧ ∀ (fs2 : FileState) (m : ProbModelArtifact),
        loadModel fs2 = .ok m → fs2 = .valid m :=
  load_explicit_error .missing (Or.inl rfl)

/-! ### Walk-forward evaluator (`sentix/backtest/walk_forward.py`)

Only the fold-scheduling skeleton of `WalkForwardBacktester.run` matters
for the insufficient-data guard: the guard fires before any model is
constructed or fitted, so the result type separates the explicit error from
the list of (train_end, test_end) fold boundaries the training loop would
iterate over. -/

/-- Embeds Python `int(n * frac)` for the non-negative fractions used by
the walk-forward configuration (`int` truncation = floor for non-negative
values). -/
def intFrac (n : ℕ) (frac : ℚ) : ℕ := (⌊(n : ℚ) * frac⌋).toNat

/-- Embeds the `while train_end < n - 1` loop: each iteration tests on
`[train_end, min(train_end + step, n))` and advances `train_end` to
`test_end`; `test_end ≤ train_end` breaks out. -/
def foldSchedule (n step trainEnd : ℕ) : List (ℕ × ℕ) :=
  if trainEnd < n - 1 then
    if min (trainEnd + step) n ≤ trainEnd then []
    else
      (trainEnd, min (trainEnd + step) n)
        :: foldSchedule n step (min (trainEnd + step) n)
  else []
termination_by n - trainEnd
decreasing_by omega

/-- Embeds `WalkForwardBacktester.run` up to fold scheduling:
`initial_train_end = int(n * train_size)` rows; if that is below
`min_train_samples` the run stops with the explicit error before any fold
is trained. -/
def wfRun (trainSize stepSize : ℚ) (minTrainSamples n : ℕ) :
    Except String (List (ℕ × ℕ)) :=
  if intFrac n trainSize < minTrainSamples then .error "Insufficient data"
  else .ok (foldSchedule n (intFrac n stepSize) (intFrac n trainSize))

/-- C9: when the initial training window `int(n * train_size)` holds fewer
than `min_train_samples` rows, the walk-forward run returns the explicit
`'Insufficient data'` error — no fold is scheduled or trained. -/
theorem walk_forward_insufficient_data (trainSize stepSize : ℚ)
    (minTrainSamples n : ℕ)
    (h : intFrac n trainSize < minTrainSamples) :
    wfRun trainSize stepSize minTrainSamples n = .error "Insufficient data" := by
  simp [wfRun, h]

/-- Witness for C9: 10 rows, train fraction 3/5 (initial window 6 rows),
minimum 30 samples. -/
theorem walk_forward_insufficient_data_witness :
    wfRun (3/5) (1/10) 30 10 = .error "Insufficient data" :=
  walk_forward_insufficient_data (3/5) (1/10) 30 10 (by norm_num [intFrac])

/-! ### Alert rules (`sentix/alerts/rule.py`)

`_evaluate_condition` resolves the condition's field on the ticker's latest
data row (with a special case for `'volatility'` when a truthy volatility
dict is supplied), returns `False` for a missing field or a NaN value, then
dispatches on the operator string; an unrecognized operator falls through
to the final `return False`.  `Except Unit Bool` separates a Python
`TypeError` — comparing the float field value against a two-element list
value, or subscripting a scalar value, which can only happen after field
resolution and the NaN check succeed — from an ordinary boolean result.
`evaluate` is pure; only `trigger()` (called by the engine when `evaluate`
returns True) updates `last_triggered`. -/

instance : DecidableEq (Except Unit Bool) := fun a b =>
  match a, b with
  | .error x, .error y => by cases x; cases y; exact isTrue rfl
  | .ok x, .ok y =>
    match decEq x y with
    | isTrue h => isTrue (h ▸ rfl)
    | isFalse h => isFalse (fun hh => h (Except.ok.inj hh))
  | .error _, .ok _ => isFalse (fun h => Except.noConfusion h)
  | .ok _, .error _ => isFalse (fun h => Except.noConfusion h)

/-- A field value of the latest data row; `nan` models float NaN. -/
inductive FVal
  | num (q : ℚ)
  | nan
deriving DecidableEq, Repr

/-- The `value` of a condition: a scalar or a two-element list. -/
inductive CVal
  | scalar (q : ℚ)
  | pair (lo hi : ℚ)
deriving DecidableEq, Repr

structure ACond where
  field : String
  op : String
  value : CVal
deriving DecidableEq, Repr

/-- One row of the sentiment data table handed to `evaluate`. -/
structure DRow where
  ticker : Ticker
  bucket : ℤ
  fields : List (String × FVal)
deriving DecidableEq, Repr

structure ARule where
  rule_id : String
  name : String
  ticker : Ticker
  conditions : List ACond
  actions : List String
  enabled : Bool
  cooldown_minutes : ℤ
  last_triggered : Option ℤ
deriving DecidableEq, Repr

/-- Python truthiness of the optional volatility dict
(`field == 'volatility' and volatility_data`). -/
def volTruthy (vol : Option (List (Ticker × ℚ))) : Bool :=
  match vol with
  | some d => !d.isEmpty
  | none => false

/-- Field resolution of `_evaluate_condition`: the volatility special case
(`volatility_data.get(self.ticker, 0)`), else the row lookup; `none` means
the field is absent. -/
def resolveField (ruleTicker : Ticker) (c : ACond)
    (row : List (String × FVal)) (vol : Option (List (Ticker × ℚ))) :
    Option FVal :=
  if c.field = "volatility" ∧ volTruthy vol = true then
    some (.num (((vol.getD []).lookup ruleTicker).getD 0))
  else row.lookup c.field

/-- Comparison of the float field value against a condition value expected
to be a scalar (a list value raises `TypeError` in Python). -/
def cmpScalar (p : ℚ → Bool) : CVal → Except Unit Bool
  | .scalar q => .ok (p q)
  | .pair _ _ => .error ()

/-- Embeds `AlertRule._evaluate_condition`. -/
def evalCondition (ruleTicker : Ticker) (c : ACond)
    (row : List (String × FVal)) (vol : Option (List (Ticker × ℚ))) :
    Except Unit Bool :=
  match resolveField ruleTicker c row vol with
  | none => .ok false
  | some .nan => .ok false
  | some (.num x) =>
    if c.op = ">" then cmpScalar (fun v => decide (v < x)) c.value
    else if c.op = "<" then cmpScalar (fun v => decide (x < v)) c.value
    else if c.op = ">=" then cmpScalar (fun v => decide (v ≤ x)) c.value
    else if c.op = "<=" then cmpScalar (fun v => decide (x ≤ v)) c.value
    else if c.op = "==" then
      match c.value with
      | .scalar v => .ok (decide (x = v))
      | .pair _ _ => .ok false
    else if c.op = "!=" then
      match c.value with
      | .scalar v => .ok (decide (x ≠ v))
      | .pair _ _ => .ok true
    else if c.op = "between" then
      match c.value with
      | .pair lo hi => .ok (decide (lo ≤ x ∧ x ≤ hi))
      | .scalar _ => .error ()
    else if c.op = "outside" then
      match c.value with
      | .pair lo hi => .ok (decide (x < lo ∨ hi < x))
      | .scalar _ => .error ()
    else if c.op = "cross_above" then cmpScalar (fun v => decide (v < x)) c.value
    else if c.op = "cross_below" then cmpScalar (fun v => decide (x < v)) c.value
    else .ok false

/-- Short-circuit AND over the rule's conditions (`evaluate`'s loop). -/
def evalAll (ruleTicker : Ticker) (conds : List ACond)
    (row : List (String × FVal)) (vol : Option (List (Ticker × ℚ))) :
    Except Unit Bool :=
  match conds with
  | [] => .ok true
  | c :: cs =>
    match evalCondition ruleTicker c row vol with
    | .error e => .error e
    | .ok false => .ok false
    | .ok true => evalAll ruleTicker cs row vol

/-- Sort key of `.sort_values('bucket_start')` on the ticker's rows. -/
def drowLE (a b : DRow) : Prop := a.bucket ≤ b.bucket

instance : DecidableRel drowLE := fun a b => by unfold drowLE; infer_instance

/-- Embeds `data[data['ticker'] == self.ticker]
.sort_values('bucket_start').iloc[-1]`; `none` iff the ticker is absent. -/
def latestRow (data : List DRow) (t : Ticker) : Option DRow :=
  ((data.filter (fun r => r.ticker == t)).insertionSort drowLE).getLast?

/-- The cooldown guard of `evaluate`, with `datetime.now()` passed as `now`
(minutes). -/
def cooldownActive (rule : ARule) (now : ℤ) : Bool :=
  match rule.last_triggered with
  | some t0 => decide (now - t0 < rule.cooldown_minutes)
  | none => false

/-- Embeds `AlertRule.evaluate`. -/
def evaluateRule (rule : ARule) (data : List DRow)
    (vol : Option (List (Ticker × ℚ))) (now : ℤ) : Except Unit Bool :=
  if rule.enabled = false then .ok false
  else if cooldownActive rule now = true then .ok false
  else
    match latestRow data rule.ticker with
    | none => .ok false
    | some row => evalAll rule.ticker rule.conditions row.fields vol

/-- Embeds `AlertRule.trigger`: stamps `last_triggered`. -/
def triggerRule (rule : ARule) (now : ℤ) : ARule :=
  { rule with last_triggered := some now }

/-- Embeds the engine step `if rule.evaluate(...): rule.trigger()` from
`alerts/engine.py`: a False evaluation leaves the rule untouched. -/
def alertStep (rule : ARule) (data : List DRow)
    (vol : Option (List (Ticker × ℚ))) (now : ℤ) :
    Except Unit (ARule × Bool) :=
  match evaluateRule rule data vol now with
  | .error e => .error e
  | .ok true => .ok (triggerRule rule now, true)
  | .ok false => .ok (rule, false)

lemma evalAll_false (rt : Ticker) (row : List (String × FVal))
    (vol : Option (List (Ticker × ℚ))) :
    ∀ (conds : List ACond) (c : ACond), c ∈ conds →
      evalCondition rt c row vol = .ok false →
      (∀ c2 ∈ conds, evalCondition rt c2 row vol ≠ .error ()) →
      evalAll rt conds row vol = .ok false := by
  intro conds
  induction conds with
  | nil => intro c hc; simp at hc
  | cons a cs ih =>
    intro c hc hcf hne
    unfold evalAll
    rcases List.mem_cons.mp hc with rfl | hc
    · simp only [hcf]
    · cases ha : evalCondition rt a row vol with
      | error e =>
        cases e
        exact absurd ha (hne a (List.mem_cons_self _ _))
      | ok bv =>
        cases bv with
        | false => simp only [ha]
        | true =>
          simp only [ha]
          exact ih c hc hcf (fun c2 h2 => hne c2 (List.mem_cons_of_mem _ h2))

/-- C10: a condition whose field is absent from the latest row (outside the
volatility special case), or whose field value is NaN, or whose operator
string is unrecognized, evaluates to False rather than raising; the rule
then does not fire, and the engine step leaves the rule — in particular its
`last_triggered` — unchanged. -/
theorem alert_bad_condition_no_fire (rule : ARule) (data : List DRow)
    (vol : Option (List (Ticker × ℚ))) (now : ℤ) (c : ACond) (row : DRow)
    (hrow : latestRow data rule.ticker = some row)
    (hc : c ∈ rule.conditions)
    (hbad :
      (¬(c.field = "volatility" ∧ volTruthy vol = true)
          ∧ row.fields.lookup c.field = none)
      ∨ (¬(c.field = "volatility" ∧ volTruthy vol = true)
          ∧ row.fields.lookup c.field = some .nan)
      ∨ c.op ∉ [">", "<", ">=", "<=", "==", "!=", "between", "outside",
          "cross_above", "cross_below"])
    (hnoerr : ∀ c2 ∈ rule.conditions,
        evalCondition rule.ticker c2 row.fields vol ≠ .error ()) :
    evalCondition rule.ticker c row.fields vol = .ok false
    ∧ evaluateRule rule data vol now = .ok false
    ∧ alertStep rule data vol now = .ok (rule, false) := by
  have hcf : evalCondition rule.ticker c row.fields vol = .ok false := by
    rcases hbad with ⟨hsp, hlk⟩ | ⟨hsp, hlk⟩ | hop
    · simp [evalCondition, resolveField, if_neg hsp, hlk]
    · simp [evalCondition, resolveField, if_neg hsp, hlk]
    · simp only [List.mem_cons, List.not_mem_nil, or_false, not_or] at hop
      obtain ⟨h1, h2, h3, h4, h5, h6, h7, h8, h9, h10⟩ := hop
      unfold evalCondition
      cases hres : resolveField rule.ticker c row.fields vol with
      | none => rfl
      | some fv =>
        cases fv with
        | nan => rfl
        | num x => simp [h1, h2, h3, h4, h5, h6, h7, h8, h9, h10]
  have heval : evaluateRule rule data vol now = .ok false := by
    unfold evaluateRule
    by_cases hen : rule.enabled = false
    · simp [hen]
    · rw [if_neg hen]
      by_cases hcd : cooldownActive rule now = true
      · simp [hcd]
      · rw [if_neg hcd, hrow]
        exact evalAll_false rule.ticker row.fields vol rule.conditions c hc
          hcf hnoerr
  refine ⟨hcf, heval, ?_⟩
  unfold alertStep
  rw [heval]

/-- Witness for C10: an enabled rule whose single condition uses the
unrecognized operator string `'sideways'` on a present field. -/
theorem alert_bad_condition_no_fire_witness :
    evalCondition 0 ⟨"mean_sent", "sideways", .scalar 0⟩
        [("mean_sent", .num 1)] none = .ok false
    ∧ evaluateRule
        ⟨"r1", "rule one", 0, [⟨"mean_sent", "sideways", .scalar 0⟩], [],
          true, 30, none⟩
        [⟨0, 0, [("mean_sent", .num 1)]⟩] none 0 = .ok false
    ∧ alertStep
        ⟨"r1", "rule one", 0, [⟨"mean_sent", "sideways", .scalar 0⟩], [],
          true, 30, none⟩
        [⟨0, 0, [("mean_sent", .num 1)]⟩] none 0
      = .ok (⟨"r1", "rule one", 0, [⟨"mean_sent", "sideways", .scalar 0⟩], [],
          true, 30, none⟩, false) :=
  alert_bad_condition_no_fire
    ⟨"r1", "rule one", 0, [⟨"mean_sent", "sideways", .scalar 0⟩], [],
      true, 30, none⟩
    [⟨0, 0, [("mean_sent", .num 1)]⟩] none 0
    ⟨"mean_sent", "sideways", .scalar 0⟩ ⟨0, 0, [("mean_sent", .num 1)]⟩
    (by decide) (by decide)
    (Or.inr (Or.inr (by decide)))
    (by decide)

end Sentix
